import Mathlib

/-!
# compress_file (src/graph/dependencies/src/main.c)

A shallow embedding of `compress_file`, the chunked zlib pump of `main.c`.

* The zlib codec is an external library: it is a parameter (`Codec`), a
  function from the codec state, the bytes at `next_in`, the room at
  `next_out` and the flush mode to the new state, the number of bytes
  consumed, the bytes produced and the return code.
* The file system is a parameter too (`World`): whether each `fopen`
  succeeds, the outcome of each successive `fread` and `fwrite`, and the
  outcome of the flush inside `fclose(dest_file)`.
* `dest_file` is a buffered stdio stream (`DestStream`): `fwrite` hands bytes
  to the stream, which writes them through to the file when it chooses to and
  at the latest inside `fclose`.  The sink of a run is the contents of the
  file when the run stops, not the bytes `fwrite` accepted.
* The two `do ... while` loops are bounded by a fuel argument.  A run that
  uses up its fuel has `ret = none` and carries the trace so far, so the
  function is total and every property of traces is proved for unfinished
  runs as well.
* A run yields the returned value, the sequence of library calls made
  (`Event`), the contents of the sink file and the bytes left in the buffer of
  `dest_file`.
-/

namespace CompressFile

/-- Bytes are kept as natural numbers; no arithmetic is done on them. -/
abbrev Byte := Nat

/-- Source line 8: the size of the `in` and `out` arrays. -/
def CHUNK : Nat := 16384

/-- Value of Z_OK in zlib.h. -/
def Z_OK : Int := 0

/-- Value of Z_STREAM_END in zlib.h. -/
def Z_STREAM_END : Int := 1

/-- Value of Z_NO_FLUSH in zlib.h. -/
def Z_NO_FLUSH : Int := 0

/-- Value of Z_FINISH in zlib.h. -/
def Z_FINISH : Int := 4

/-- Value of Z_DEFAULT_COMPRESSION in zlib.h. -/
def Z_DEFAULT_COMPRESSION : Int := -1

/-- What one call of the codec does: new internal state, number of input
bytes consumed, bytes produced, return code. -/
structure Step (σ : Type) where
  state : σ
  consumed : Nat
  output : List Byte
  ret : Int

/-- The external codec.  `init level` is `deflateInit`: its return code and
the initial internal state.  `step s input room flush` is the effect of
`deflate` on internal state `s` when `input` are the bytes at `next_in`
(`avail_in` of them), `room` is `avail_out` and `flush` the flush mode. -/
structure Codec (σ : Type) where
  init : Int → Int × σ
  step : σ → List Byte → Nat → Int → Step σ

/-- The fields of `z_stream` that `compress_file` touches.  `next_in` is the
memory `next_in` points to, as a list. -/
structure z_stream (σ : Type) where
  state : σ
  next_in : List Byte
  avail_in : Nat
  avail_out : Nat

/-- Scripted outcome of one `fread`: the bytes delivered and whether the
error indicator of the stream is set afterwards. -/
structure ReadResult where
  data : List Byte
  error : Bool
deriving DecidableEq, Repr

/-- Scripted outcome of one `fwrite`: how many bytes the stream is willing to
accept, whether its error indicator is set afterwards, and how many bytes of
its buffer the stream writes through to the file during the call (stdio
decides when it empties its buffer). -/
structure WriteResult where
  accept : Nat
  error : Bool
  flush : Nat
deriving DecidableEq, Repr

/-- The stdio stream `dest_file`: the bytes that are in the file and the bytes
that `fwrite` accepted and that still sit in the stream buffer. -/
structure DestStream where
  file : List Byte
  buffer : List Byte
deriving DecidableEq, Repr

/-- The two streams of `compress_file`. -/
inductive Handle
  | source
  | dest
deriving DecidableEq, Repr

/-- The library calls of `compress_file`, in the order they are made.
* `fread pending n err`: `pending` is the value of `strm.avail_in` that the
  assignment of line 34 overwrites, `n` the number of bytes read, `err` the
  value of `ferror` on line 35.
* `deflate flush avail_in ret avail_out produced`: the flush argument, the
  value of `avail_in` offered, the return code, `avail_out` after the call and
  the bytes stored at the start of `out`.
* `fwrite bytes written err`: the bytes handed over (`have` of them), the
  count returned and the value of `ferror` on line 51. -/
inductive Event
  | fopen (h : Handle) (ok : Bool)
  | printf
  | deflateInit (ok : Bool)
  | fread (pending : Nat) (n : Nat) (err : Bool)
  | deflate (flush : Int) (avail_in : Nat) (ret : Int) (avail_out : Nat) (produced : List Byte)
  | fwrite (bytes : List Byte) (written : Nat) (err : Bool)
  | deflateEnd
  | fclose (h : Handle)
deriving DecidableEq, Repr

/-- The environment of one run.  `avail_in0` and `out0` are the indeterminate
initial contents of `strm.avail_in` and of the array `out`.  `close_limit` is
the outcome of the flush inside `fclose(dest_file)`: `none` when the whole
buffer reaches the file, `some k` when only `k` bytes of it do. -/
structure World where
  source_ok : Bool
  dest_ok : Bool
  reads : List ReadResult
  writes : List WriteResult
  close_limit : Option Nat
  avail_in0 : Nat
  out0 : List Byte

/-- One run: the value returned (`none` when the fuel ran out inside a loop),
the calls made, the contents of the sink file when the run stops, and the
bytes that are still in the buffer of `dest_file` at that moment (the stream
was not closed). -/
structure Run where
  ret : Option Int
  trace : List Event
  sink : List Byte
  buffered : List Byte
deriving DecidableEq, Repr

/-- Model of `fread(in, 1, CHUNK, source_file)` followed by `ferror`: the next
scripted outcome, cut to `CHUNK` bytes; an exhausted script is end of file. -/
def fread : List ReadResult → List Byte × Bool × List ReadResult
  | [] => ([], false, [])
  | r :: rest => (r.data.take CHUNK, r.error, rest)

/-- Model of `fwrite(out, 1, have, dest_file)` followed by `ferror`: the
stream afterwards, the count returned, the error indicator and the rest of the
script.  The accepted bytes go to the stream buffer, and the stream writes the
scripted number of buffered bytes through to the file.  An exhausted script
accepts everything and writes nothing through. -/
def fwrite (s : DestStream) (buf : List Byte) (nhave : Nat) : List WriteResult →
    DestStream × Nat × Bool × List WriteResult
  | [] => ({ file := s.file, buffer := s.buffer ++ buf.take nhave }, nhave, false, [])
  | w :: rest =>
    ({ file := s.file ++ (s.buffer ++ buf.take (min w.accept nhave)).take w.flush,
       buffer := (s.buffer ++ buf.take (min w.accept nhave)).drop w.flush },
     min w.accept nhave, w.error, rest)

/-- Model of `fclose(dest_file)` (line 60): the contents of the file once the
stream is closed.  The buffer is written out as far as the scripted limit
allows; the result of `fclose` is not looked at by the code. -/
def fclose (limit : Option Nat) (s : DestStream) : List Byte :=
  match limit with
  | none => s.file ++ s.buffer
  | some k => s.file ++ s.buffer.take k

/-- What `deflate` leaves behind: the stream fields, the array `out`, the
return code, and (for the trace) the bytes it stored. -/
structure Deflated (σ : Type) where
  strm : z_stream σ
  out : List Byte
  ret : Int
  produced : List Byte

/-- Model of `deflate(&strm, flush)` with `next_out = out`: the codec step is
applied to the `avail_in` bytes at `next_in`; it cannot consume more than
`avail_in` bytes nor produce more than `avail_out`; the produced bytes
overwrite the start of `out`. -/
def deflate {σ : Type} (c : Codec σ) (strm : z_stream σ) (out : List Byte) (flush : Int) :
    Deflated σ :=
  let r := c.step strm.state (strm.next_in.take strm.avail_in) strm.avail_out flush
  let consumed := min r.consumed strm.avail_in
  let produced := r.output.take strm.avail_out
  { strm :=
      { state := r.state,
        next_in := strm.next_in.drop consumed,
        avail_in := strm.avail_in - consumed,
        avail_out := strm.avail_out - produced.length },
    out := produced ++ out.drop produced.length,
    ret := r.ret,
    produced := produced }

/-- How the inner loop (lines 44-55) ended. -/
inductive DrainStatus
  | done (ret : Int)
  | write_error
  | out_of_fuel
deriving DecidableEq, Repr

/-- Result of the inner loop: how it ended, the codec stream and `out` array
afterwards, the calls made, the stream `dest_file` afterwards and the rest of
the write script. -/
structure Drained (σ : Type) where
  status : DrainStatus
  strm : z_stream σ
  out : List Byte
  trace : List Event
  dest : DestStream
  writes : List WriteResult

/-- Lines 44-55: the inner `do ... while (strm.avail_out == 0)`. -/
def drain {σ : Type} (c : Codec σ) :
    Nat → z_stream σ → List Byte → List WriteResult → DestStream → Drained σ
  | 0, strm, out, ws, s =>
    { status := .out_of_fuel, strm := strm, out := out, trace := [], dest := s, writes := ws }
  | fuel + 1, strm, out, ws, s =>
    let strm1 : z_stream σ := { strm with avail_out := CHUNK }
    let d := deflate c strm1 out Z_NO_FLUSH
    let strm2 := d.strm
    let out2 := d.out
    let ret := d.ret
    let nhave := CHUNK - strm2.avail_out
    let w := fwrite s out2 nhave ws
    let evs : List Event :=
      [Event.deflate Z_NO_FLUSH strm1.avail_in ret strm2.avail_out d.produced,
       Event.fwrite (out2.take nhave) w.2.1 w.2.2.1]
    if w.2.1 ≠ nhave ∨ w.2.2.1 = true then
      { status := .write_error, strm := strm2, out := out2,
        trace := evs ++ [Event.deflateEnd], dest := w.1, writes := w.2.2.2 }
    else if strm2.avail_out = 0 then
      let r := drain c fuel strm2 out2 w.2.2.2 w.1
      { r with trace := evs ++ r.trace }
    else
      { status := .done ret, strm := strm2, out := out2,
        trace := evs, dest := w.1, writes := w.2.2.2 }

/-- Lines 58-61: the code after the outer loop. -/
def epilogue : List Event :=
  [Event.deflateEnd, Event.fclose Handle.source, Event.fclose Handle.dest]

/-- Lines 33-56: the outer `do ... while (ret != Z_STREAM_END)` followed by
lines 58-61.  `dfuel` bounds each inner loop, the next number the outer loop;
`limit` is the outcome of the flush inside `fclose(dest_file)`.  A return
without `fclose` leaves the buffered bytes in the stream. -/
def pump {σ : Type} (c : Codec σ) (dfuel : Nat) (limit : Option Nat) :
    Nat → List ReadResult → z_stream σ → List Byte → List WriteResult → DestStream → Run
  | 0, _, _, _, _, s => { ret := none, trace := [], sink := s.file, buffered := s.buffer }
  | fuel + 1, reads, strm, out, ws, s =>
    let rd := fread reads
    let n := rd.1.length
    let ev := Event.fread strm.avail_in n rd.2.1
    let strm1 : z_stream σ := { strm with avail_in := n }
    if rd.2.1 = true then
      { ret := some (-1), trace := [ev, Event.deflateEnd],
        sink := s.file, buffered := s.buffer }
    else if strm1.avail_in = 0 then
      { ret := some 0, trace := ev :: epilogue, sink := fclose limit s, buffered := [] }
    else
      let strm2 : z_stream σ := { strm1 with next_in := rd.1 }
      let d := drain c dfuel strm2 out ws s
      match d.status with
      | .write_error =>
        { ret := some (-1), trace := ev :: d.trace,
          sink := d.dest.file, buffered := d.dest.buffer }
      | .out_of_fuel =>
        { ret := none, trace := ev :: d.trace,
          sink := d.dest.file, buffered := d.dest.buffer }
      | .done ret =>
        if ret ≠ Z_STREAM_END then
          let r := pump c dfuel limit fuel rd.2.2 d.strm d.out d.writes d.dest
          { r with trace := ev :: (d.trace ++ r.trace) }
        else
          { ret := some 0, trace := ev :: (d.trace ++ epilogue),
            sink := fclose limit d.dest, buffered := [] }

/-- Lines 11-62.  `fopen(dest, "wb")` truncates, so the sink file starts empty,
and so does the buffer of the new stream. -/
def compress_file {σ : Type} (c : Codec σ) (w : World) (fuel : Nat) : Run :=
  let opens : List Event :=
    [Event.fopen Handle.source w.source_ok, Event.fopen Handle.dest w.dest_ok]
  if w.source_ok = false ∨ w.dest_ok = false then
    { ret := some (-1), trace := opens ++ [Event.printf], sink := [], buffered := [] }
  else
    let i := c.init Z_DEFAULT_COMPRESSION
    if i.1 ≠ Z_OK then
      { ret := some (-1), trace := opens ++ [Event.deflateInit false], sink := [],
        buffered := [] }
    else
      let strm : z_stream σ :=
        { state := i.2, next_in := [], avail_in := w.avail_in0, avail_out := 0 }
      let r := pump c fuel w.close_limit fuel w.reads strm w.out0 w.writes
        { file := [], buffer := [] }
      { r with trace := opens ++ Event.deflateInit true :: r.trace }

/-- A codec instance for concrete runs: it copies its input to its output
(as many bytes as fit) and always returns Z_OK. -/
def storeCodec : Codec Unit where
  init := fun _ => (Z_OK, ())
  step := fun _ input room _ =>
    { state := (), consumed := min input.length room, output := input.take room, ret := Z_OK }

/-- A codec instance that checks its flush argument as zlib does: a flush mode
outside 0..5 makes the step return Z_STREAM_ERROR (-2) with nothing consumed
and nothing produced; otherwise it copies like `storeCodec`, and it returns
Z_STREAM_END once a Z_FINISH step has taken all its input. -/
def strictCodec : Codec Unit where
  init := fun _ => (Z_OK, ())
  step := fun _ input room flush =>
    if flush < 0 ∨ 5 < flush then
      { state := (), consumed := 0, output := [], ret := -2 }
    else
      { state := (), consumed := min input.length room, output := input.take room,
        ret := if flush = Z_FINISH ∧ input.length ≤ room then Z_STREAM_END else Z_OK }

/-- A codec instance whose `deflateInit` fails with Z_MEM_ERROR (-4). -/
def noMemCodec : Codec Unit where
  init := fun _ => (-4, ())
  step := storeCodec.step

/-- A world in which both streams open, the source delivers the scripted
reads, the sink stream accepts every write and keeps the bytes in its buffer,
and `fclose` writes the whole buffer to the file. -/
def okWorld (reads : List ReadResult) : World :=
  { source_ok := true, dest_ok := true, reads := reads, writes := [],
    close_limit := none, avail_in0 := 7, out0 := [] }

/-- The four failure kinds of section 7 of the specification. -/
inductive Failure
  | IOOpenError
  | CodecInitError
  | IOReadError
  | IOWriteError
deriving DecidableEq, Repr

/-- The failure an event reports, if any: an `fopen` that returned NULL, a
`deflateInit` that did not return Z_OK, an `fread` after which `ferror` is
set, an `fwrite` that returned a count other than `have` or after which
`ferror` is set (the tests of lines 15, 28, 35 and 51). -/
def Event.failure? : Event → Option Failure
  | .fopen _ false => some .IOOpenError
  | .deflateInit false => some .CodecInitError
  | .fread _ _ true => some .IOReadError
  | .fwrite bytes written err =>
    if written ≠ bytes.length ∨ err = true then some .IOWriteError else none
  | _ => none

/-- The failure kind of a run: that of the first failing call of its trace. -/
def failureKind (t : List Event) : Option Failure :=
  t.findSome? Event.failure?

/-- A read that reported an I/O fault or a write that failed or fell short. -/
def Event.isIOFault (e : Event) : Bool :=
  e.failure? = some .IOReadError || e.failure? = some .IOWriteError

/-- A codec production step. -/
def Event.isDeflate : Event → Bool
  | .deflate _ _ _ _ _ => true
  | _ => false

/-- A read of the source. -/
def Event.isRead : Event → Bool
  | .fread _ _ _ => true
  | _ => false

/-- A write to the sink. -/
def Event.isWrite : Event → Bool
  | .fwrite _ _ _ => true
  | _ => false

/-- A call that neither fails nor releases a resource: a successful `fopen`,
`deflateInit`, `fread` or `fwrite`, or a `deflate`. -/
def Event.calm : Event → Bool
  | .fopen _ ok => ok
  | .deflateInit ok => ok
  | .fread _ _ err => !err
  | .deflate _ _ _ _ _ => true
  | .fwrite bytes written err => decide (written = bytes.length) && !err
  | .printf => false
  | .deflateEnd => false
  | .fclose _ => false

/-- The bytes a production step produced (nothing for other events). -/
def Event.produced : Event → List Byte
  | .deflate _ _ _ _ produced => produced
  | _ => []

/-- The scripted reads of a source file that holds `B` and never faults:
`B` in pieces of `CHUNK` bytes (the first argument bounds the recursion). -/
def chunkReads : Nat → List Byte → List ReadResult
  | 0, _ => []
  | fuel + 1, B =>
    if B = [] then [] else { data := B.take CHUNK, error := false } :: chunkReads fuel (B.drop CHUNK)

/-- The world of a fault-free run on a source holding `B`. -/
def fileWorld (B : List Byte) : World :=
  okWorld (chunkReads B.length B)

/-- The codec states a run of `compress_file` can reach: the state a
successful `deflateInit` leaves, and the state after a `deflate` call of the
kind line 48 makes (Z_NO_FLUSH, `CHUNK` bytes of output room) on a reached
state. -/
inductive Reached {σ : Type} (c : Codec σ) : σ → Prop
  | init : (c.init Z_DEFAULT_COMPRESSION).1 = Z_OK →
      Reached c (c.init Z_DEFAULT_COMPRESSION).2
  | step (s : σ) (input : List Byte) :
      Reached c s → Reached c (c.step s input CHUNK Z_NO_FLUSH).state

/-- The codec consumes all its input unless it runs out of output room: when
a `deflate` call of the kind line 48 makes (Z_NO_FLUSH, `CHUNK` bytes of output
room, a state the run can reach) leaves room in the output (`avail_out != 0`
afterwards) it has consumed every input byte.  zlib documents this for
`deflate`.  Nothing is asked of the codec for other flush modes, other amounts
of room or other states. -/
def DrainsInput {σ : Type} (c : Codec σ) : Prop :=
  ∀ s input, Reached c s →
    ((c.step s input CHUNK Z_NO_FLUSH).output.take CHUNK).length < CHUNK →
      input.length ≤ (c.step s input CHUNK Z_NO_FLUSH).consumed

/-- The codec ends a stream only when asked to: a step under Z_NO_FLUSH never
returns Z_STREAM_END.  zlib documents this for `deflate`. -/
def EndsOnlyOnFinish {σ : Type} (c : Codec σ) : Prop :=
  ∀ s input room, (c.step s input room Z_NO_FLUSH).ret ≠ Z_STREAM_END

/-- Shape of the trace of the inner loop, by the way the loop ended. -/
inductive DrainShape : DrainStatus → List Event → Prop
  | ok (st : DrainStatus) (t : List Event) :
      st ≠ DrainStatus.write_error → (∀ e ∈ t, e.calm = true) → DrainShape st t
  | fault (body : List Event) (f : Event) :
      (∀ e ∈ body, e.calm = true) → f.failure? = some Failure.IOWriteError →
      DrainShape DrainStatus.write_error (body ++ [f, Event.deflateEnd])

/-- Shape of a run that got past `deflateInit`, by the value returned: the
calm calls of the loops, then either nothing (fuel ran out), or the code after
the loop, or one faulting read or write followed by `deflateEnd`. -/
inductive LoopShape : Option Int → List Event → Prop
  | unfinished (t : List Event) :
      (∀ e ∈ t, e.calm = true) → LoopShape none t
  | success (body : List Event) :
      (∀ e ∈ body, e.calm = true) → LoopShape (some 0) (body ++ epilogue)
  | io_fault (body : List Event) (f : Event) :
      (∀ e ∈ body, e.calm = true) → f.isIOFault = true →
      LoopShape (some (-1)) (body ++ [f, Event.deflateEnd])

/-- The value of `strm.avail_in` a read overwrites (0 for other events). -/
def Event.pending : Event → Nat
  | .fread pending _ _ => pending
  | _ => 0

/-- The calls up to and including a successful `deflateInit`. -/
def prologue : List Event :=
  [Event.fopen Handle.source true, Event.fopen Handle.dest true, Event.deflateInit true]

/-- Every production step of `t` is directly followed by a write of exactly
the bytes it produced, `CHUNK - avail_out` of them. -/
def WritesFollow (t : List Event) : Prop :=
  ∀ pre post flush ai ret ao produced,
    t = pre ++ Event.deflate flush ai ret ao produced :: post →
      produced.length = CHUNK - ao ∧
      ∃ written err post2, post = Event.fwrite produced written err :: post2

/-- A production step that was asked not to flush and did not end the stream
(true of every event that is not a production step). -/
def Event.openStep : Event → Prop
  | .deflate flush _ ret _ _ => flush = Z_NO_FLUSH ∧ ret ≠ Z_STREAM_END
  | _ => True

/-- The inner loop of codec `c` ends within `b` steps on every buffer the
outer loop can hand it (at most `CHUNK` bytes at `next_in`). -/
def DrainsWithin {σ : Type} (c : Codec σ) (b : Nat) : Prop :=
  ∀ (strm : z_stream σ) (out : List Byte) (ws : List WriteResult) (s : DestStream),
    strm.avail_in ≤ CHUNK → strm.next_in.length = strm.avail_in →
    (drain c b strm out ws s).status ≠ DrainStatus.out_of_fuel

/-- A fault-free run on a source that delivers three bytes, then one. -/
def twoReadWorld : World :=
  okWorld [{ data := [1, 2, 3], error := false }, { data := [4], error := false }]

/-- The second read reports an I/O fault. -/
def readFaultWorld : World :=
  okWorld [{ data := [1, 2, 3], error := false }, { data := [4], error := true }]

/-- The sink accepts only two bytes of the first write. -/
def shortWriteWorld : World :=
  { twoReadWorld with writes := [{ accept := 2, error := false, flush := 0 }] }

/-- The source opens, the sink does not. -/
def noDestWorld : World :=
  { twoReadWorld with dest_ok := false }

/-- The source does not open, the sink does. -/
def noSourceWorld : World :=
  { twoReadWorld with source_ok := false }

/-! ## Lemmas on the model -/

theorem deflate_have {σ : Type} (c : Codec σ) (strm : z_stream σ) (out : List Byte) (flush : Int) :
    CHUNK - (deflate c { strm with avail_out := CHUNK } out flush).strm.avail_out
      = (deflate c { strm with avail_out := CHUNK } out flush).produced.length := by
  simp only [deflate]
  have h : (List.take CHUNK (c.step strm.state (List.take strm.avail_in strm.next_in) CHUNK flush).output).length ≤ CHUNK := by
    simp [List.length_take]
  omega

theorem deflate_out_take {σ : Type} (c : Codec σ) (strm : z_stream σ) (out : List Byte) (flush : Int) :
    (deflate c strm out flush).out.take (deflate c strm out flush).produced.length
      = (deflate c strm out flush).produced := by
  simp [deflate]

theorem DrainShape.prepend_drain {st : DrainStatus} {t : List Event} (pre : List Event)
    (hpre : ∀ e ∈ pre, e.calm = true) (h : DrainShape st t) : DrainShape st (pre ++ t) := by
  cases h with
  | ok _ _ hst ht =>
    refine DrainShape.ok _ _ hst ?_
    intro e he
    rcases List.mem_append.mp he with h1 | h1
    · exact hpre e h1
    · exact ht e h1
  | fault body f hb hf =>
    rw [← List.append_assoc]
    refine DrainShape.fault _ _ ?_ hf
    intro e he
    rcases List.mem_append.mp he with h1 | h1
    · exact hpre e h1
    · exact hb e h1

theorem calm_step_events (flush : Int) (ai : Nat) (ret : Int) (ao : Nat) (produced : List Byte)
    (written : Nat) (err : Bool) (h : ¬(written ≠ produced.length ∨ err = true)) :
    ∀ e ∈ [Event.deflate flush ai ret ao produced, Event.fwrite produced written err],
      e.calm = true := by
  have h1 : written = produced.length := by
    by_contra hne
    exact h (Or.inl hne)
  have h2 : err = false := by
    cases err
    · rfl
    · exact absurd (Or.inr rfl) h
  intro e he
  simp only [List.mem_cons, List.mem_singleton, List.not_mem_nil, or_false] at he
  rcases he with rfl | rfl
  · rfl
  · simp [Event.calm, h1, h2]

theorem drain_shape {σ : Type} (c : Codec σ) :
    ∀ (n : Nat) (strm : z_stream σ) (out : List Byte) (ws : List WriteResult) (s : DestStream),
      DrainShape (drain c n strm out ws s).status (drain c n strm out ws s).trace := by
  intro n
  induction n with
  | zero =>
    intro strm out ws s
    exact DrainShape.ok _ _ (by simp [drain]) (by simp [drain])
  | succ n ih =>
    intro strm out ws s
    rw [drain]
    dsimp only
    rw [deflate_have, deflate_out_take]
    split_ifs with h1 h2
    · refine DrainShape.fault [_] _ ?_ ?_
      · simp [Event.calm]
      · simp only [Event.failure?]
        rw [if_pos h1]
    · exact DrainShape.prepend_drain _ (calm_step_events _ _ _ _ _ _ _ h1) (ih _ _ _ _)
    · exact DrainShape.ok _ _ (by simp) (calm_step_events _ _ _ _ _ _ _ h1)

theorem LoopShape.prepend_loop {r : Option Int} {t : List Event} (pre : List Event)
    (hpre : ∀ e ∈ pre, e.calm = true) (h : LoopShape r t) : LoopShape r (pre ++ t) := by
  have hmem : ∀ body : List Event, (∀ e ∈ body, e.calm = true) →
      ∀ e ∈ pre ++ body, e.calm = true := by
    intro body hb e he
    rcases List.mem_append.mp he with h1 | h1
    · exact hpre e h1
    · exact hb e h1
  cases h with
  | unfinished _ ht => exact LoopShape.unfinished _ (hmem _ ht)
  | success body hb =>
    rw [← List.append_assoc]
    exact LoopShape.success _ (hmem _ hb)
  | io_fault body f hb hf =>
    rw [← List.append_assoc]
    exact LoopShape.io_fault _ _ (hmem _ hb) hf

theorem DrainShape.toLoop {st : DrainStatus} {t : List Event} (h : DrainShape st t)
    (hst : st = DrainStatus.write_error) : LoopShape (some (-1)) t := by
  cases h with
  | ok _ _ hne _ => exact absurd hst hne
  | fault body f hb hf =>
    exact LoopShape.io_fault _ _ hb (by simp [Event.isIOFault, hf])

theorem DrainShape.all_calm {st : DrainStatus} {t : List Event} (h : DrainShape st t)
    (hst : st ≠ DrainStatus.write_error) : ∀ e ∈ t, e.calm = true := by
  cases h with
  | ok _ _ _ ht => exact ht
  | fault body f hb hf => exact absurd rfl hst

theorem pump_shape {σ : Type} (c : Codec σ) (dfuel : Nat) (limit : Option Nat) :
    ∀ (n : Nat) (reads : List ReadResult) (strm : z_stream σ) (out : List Byte)
      (ws : List WriteResult) (s : DestStream),
      LoopShape (pump c dfuel limit n reads strm out ws s).ret (pump c dfuel limit n reads strm out ws s).trace := by
  intro n
  induction n with
  | zero =>
    intro reads strm out ws s
    exact LoopShape.unfinished _ (by simp [pump])
  | succ n ih =>
    intro reads strm out ws s
    rw [pump]
    dsimp only
    split_ifs with h1 h2
    · exact LoopShape.io_fault [] _ (by simp) (by simp [Event.isIOFault, Event.failure?, h1])
    · have hc : ∀ e ∈ [Event.fread strm.avail_in (fread reads).1.length (fread reads).2.1],
          e.calm = true := by
        simp [Event.calm, h1]
      exact LoopShape.success [_] hc
    · have hc : ∀ e ∈ [Event.fread strm.avail_in (fread reads).1.length (fread reads).2.1],
          e.calm = true := by
        simp [Event.calm, h1]
      have hd := drain_shape c dfuel
        { state := strm.state, next_in := (fread reads).1, avail_in := (fread reads).1.length,
          avail_out := strm.avail_out } out ws s
      split
      · rename_i hst
        exact LoopShape.prepend_loop [_] hc (hd.toLoop hst)
      · rename_i hst
        exact LoopShape.unfinished _ (by
          intro e he
          rcases List.mem_cons.mp he with h3 | h3
          · exact hc e (by simp [h3])
          · exact hd.all_calm (by simp [hst]) e h3)
      · rename_i ret hst
        have hdc := hd.all_calm (by simp [hst])
        split_ifs with h3
        · exact LoopShape.prepend_loop [_] hc (LoopShape.prepend_loop _ hdc (ih _ _ _ _ _))
        · exact LoopShape.prepend_loop [_] hc (LoopShape.prepend_loop _ hdc (LoopShape.success [] (by simp)))

/-! ### The three ways through `compress_file` -/

theorem compress_file_open_failure {σ : Type} (c : Codec σ) (w : World) (fuel : Nat)
    (h : w.source_ok = false ∨ w.dest_ok = false) :
    compress_file c w fuel =
      { ret := some (-1),
        trace := [Event.fopen Handle.source w.source_ok, Event.fopen Handle.dest w.dest_ok,
                  Event.printf],
        sink := [], buffered := [] } := by
  simp only [compress_file]
  rw [if_pos h]
  rfl

theorem compress_file_init_failure {σ : Type} (c : Codec σ) (w : World) (fuel : Nat)
    (hs : w.source_ok = true) (hd : w.dest_ok = true)
    (hi : (c.init Z_DEFAULT_COMPRESSION).1 ≠ Z_OK) :
    compress_file c w fuel =
      { ret := some (-1),
        trace := [Event.fopen Handle.source true, Event.fopen Handle.dest true,
                  Event.deflateInit false],
        sink := [], buffered := [] } := by
  simp only [compress_file]
  rw [if_neg (by simp [hs, hd]), if_pos hi, hs, hd]
  rfl

theorem compress_file_started {σ : Type} (c : Codec σ) (w : World) (fuel : Nat)
    (hs : w.source_ok = true) (hd : w.dest_ok = true)
    (hi : (c.init Z_DEFAULT_COMPRESSION).1 = Z_OK) :
    compress_file c w fuel =
      { ret := (pump c fuel w.close_limit fuel w.reads
                  { state := (c.init Z_DEFAULT_COMPRESSION).2, next_in := [],
                    avail_in := w.avail_in0, avail_out := 0 } w.out0 w.writes { file := [], buffer := [] }).ret,
        trace := prologue ++ (pump c fuel w.close_limit fuel w.reads
                  { state := (c.init Z_DEFAULT_COMPRESSION).2, next_in := [],
                    avail_in := w.avail_in0, avail_out := 0 } w.out0 w.writes { file := [], buffer := [] }).trace,
        sink := (pump c fuel w.close_limit fuel w.reads
                  { state := (c.init Z_DEFAULT_COMPRESSION).2, next_in := [],
                    avail_in := w.avail_in0, avail_out := 0 } w.out0 w.writes { file := [], buffer := [] }).sink,
        buffered := (pump c fuel w.close_limit fuel w.reads
                  { state := (c.init Z_DEFAULT_COMPRESSION).2, next_in := [],
                    avail_in := w.avail_in0, avail_out := 0 } w.out0 w.writes { file := [], buffer := [] }).buffered } := by
  simp only [compress_file]
  rw [if_neg (by simp [hs, hd]), if_neg (by simp [hi]), hs, hd]
  rfl

/-- Every run is an open failure, an init failure, or a run of the loops. -/
theorem compress_file_cases {σ : Type} (c : Codec σ) (w : World) (fuel : Nat) :
    ((w.source_ok = false ∨ w.dest_ok = false) ∧
      compress_file c w fuel =
        { ret := some (-1),
          trace := [Event.fopen Handle.source w.source_ok, Event.fopen Handle.dest w.dest_ok,
                    Event.printf],
          sink := [], buffered := [] }) ∨
    ((w.source_ok = true ∧ w.dest_ok = true ∧ (c.init Z_DEFAULT_COMPRESSION).1 ≠ Z_OK) ∧
      compress_file c w fuel =
        { ret := some (-1),
          trace := [Event.fopen Handle.source true, Event.fopen Handle.dest true,
                    Event.deflateInit false],
          sink := [], buffered := [] }) ∨
    ((w.source_ok = true ∧ w.dest_ok = true ∧ (c.init Z_DEFAULT_COMPRESSION).1 = Z_OK) ∧
      LoopShape (compress_file c w fuel).ret (compress_file c w fuel).trace) := by
  by_cases hs : w.source_ok = true
  · by_cases hd : w.dest_ok = true
    · by_cases hi : (c.init Z_DEFAULT_COMPRESSION).1 = Z_OK
      · right; right
        refine ⟨⟨hs, hd, hi⟩, ?_⟩
        rw [compress_file_started c w fuel hs hd hi]
        exact LoopShape.prepend_loop prologue (by simp [prologue, Event.calm]) (pump_shape c fuel _ fuel _ _ _ _ _)
      · right; left
        exact ⟨⟨hs, hd, hi⟩, compress_file_init_failure c w fuel hs hd hi⟩
    · left
      have hd2 : w.dest_ok = false := by simpa using hd
      exact ⟨Or.inr hd2, compress_file_open_failure c w fuel (Or.inr hd2)⟩
  · left
    have hs2 : w.source_ok = false := by simpa using hs
    exact ⟨Or.inl hs2, compress_file_open_failure c w fuel (Or.inl hs2)⟩

/-! ### Lists -/

theorem split_unique {α : Type} (p : α → Bool) :
    ∀ (a : List α) {b pre post : List α} {x y : α},
      (∀ e ∈ a, p e = false) → (∀ e ∈ b, p e = false) → p y = true →
      pre ++ y :: post = a ++ x :: b → pre = a ∧ y = x ∧ post = b := by
  intro a
  induction a with
  | nil =>
    intro b pre post x y _ hb hy h
    cases pre with
    | nil =>
      simp only [List.nil_append, List.cons.injEq] at h
      exact ⟨rfl, h.1, h.2⟩
    | cons z pre2 =>
      simp only [List.nil_append, List.cons_append, List.cons.injEq] at h
      have hmem : y ∈ b := by
        rw [← h.2]
        simp
      rw [hb y hmem] at hy
      exact absurd hy (by simp)
  | cons h0 a2 ih =>
    intro b pre post x y ha hb hy h
    cases pre with
    | nil =>
      simp only [List.nil_append, List.cons_append, List.cons.injEq] at h
      have h1 := ha h0 (by simp)
      rw [← h.1, hy] at h1
      exact absurd h1 (by simp)
    | cons z pre2 =>
      simp only [List.cons_append, List.cons.injEq] at h
      have := ih (fun e he => ha e (by simp [he])) hb hy h.2
      exact ⟨by rw [h.1, this.1], this.2.1, this.2.2⟩

theorem calm_not_fault {e : Event} (h : e.calm = true) : e.isIOFault = false := by
  cases e <;> simp_all [Event.calm, Event.isIOFault, Event.failure?]

theorem calm_no_failure {e : Event} (h : e.calm = true) : e.failure? = none := by
  cases e <;> simp_all [Event.calm, Event.failure?]

theorem calm_ne_deflateEnd {e : Event} (h : e.calm = true) : e ≠ Event.deflateEnd := by
  intro he
  rw [he] at h
  exact absurd h (by simp [Event.calm])

theorem calm_ne_fclose {e : Event} (h : e.calm = true) (k : Handle) : e ≠ Event.fclose k := by
  intro he
  rw [he] at h
  exact absurd h (by simp [Event.calm])

theorem fault_ne_deflateEnd {e : Event} (h : e.isIOFault = true) : e ≠ Event.deflateEnd := by
  intro he
  rw [he] at h
  exact absurd h (by simp [Event.isIOFault, Event.failure?])

theorem fault_is_read_or_write {e : Event} (h : e.isIOFault = true) :
    e.isRead = true ∨ e.isWrite = true := by
  cases e with
  | fopen k ok => cases ok <;> simp [Event.isIOFault, Event.failure?] at h
  | deflateInit ok => cases ok <;> simp [Event.isIOFault, Event.failure?] at h
  | fread _ _ _ => exact Or.inl rfl
  | fwrite _ _ _ => exact Or.inr rfl
  | printf => simp [Event.isIOFault, Event.failure?] at h
  | deflate _ _ _ _ _ => simp [Event.isIOFault, Event.failure?] at h
  | deflateEnd => simp [Event.isIOFault, Event.failure?] at h
  | fclose _ => simp [Event.isIOFault, Event.failure?] at h

/-- A finished run of the loops is some calls other than `deflateEnd`, then
`deflateEnd`, then nothing or the two `fclose` calls. -/
theorem LoopShape.finished {v : Int} {t : List Event} (h : LoopShape (some v) t) :
    ∃ body tail, t = body ++ Event.deflateEnd :: tail ∧ Event.deflateEnd ∉ body ∧
      (tail = [] ∨ tail = [Event.fclose Handle.source, Event.fclose Handle.dest]) := by
  cases h with
  | success body hb =>
    refine ⟨body, [Event.fclose Handle.source, Event.fclose Handle.dest], rfl, ?_, Or.inr rfl⟩
    intro hmem
    exact calm_ne_deflateEnd (hb _ hmem) rfl
  | io_fault body f hb hf =>
    refine ⟨body ++ [f], [], by simp, ?_, Or.inl rfl⟩
    intro hmem
    rcases List.mem_append.mp hmem with h1 | h1
    · exact calm_ne_deflateEnd (hb _ h1) rfl
    · simp only [List.mem_singleton] at h1
      exact fault_ne_deflateEnd hf h1.symm

/-! ### Input buffer -/

theorem deflate_in_bound {σ : Type} (c : Codec σ) (strm : z_stream σ) (out : List Byte)
    (flush : Int) (h : strm.avail_in ≤ strm.next_in.length) :
    (deflate c strm out flush).strm.avail_in ≤ (deflate c strm out flush).strm.next_in.length := by
  simp only [deflate, List.length_drop]
  omega

theorem deflate_reached {σ : Type} (c : Codec σ) (strm : z_stream σ) (out : List Byte)
    (h : Reached c strm.state) :
    Reached c (deflate c { strm with avail_out := CHUNK } out Z_NO_FLUSH).strm.state :=
  Reached.step _ _ h

theorem deflate_consumes {σ : Type} (c : Codec σ) (hc : DrainsInput c) (strm : z_stream σ)
    (out : List Byte) (hr : Reached c strm.state) (h : strm.avail_in ≤ strm.next_in.length)
    (hroom : (deflate c { strm with avail_out := CHUNK } out Z_NO_FLUSH).strm.avail_out ≠ 0) :
    (deflate c { strm with avail_out := CHUNK } out Z_NO_FLUSH).strm.avail_in = 0 := by
  have h1 := hc strm.state (strm.next_in.take strm.avail_in) hr
  simp only [deflate] at hroom ⊢
  have h2 : (List.take strm.avail_in strm.next_in).length = strm.avail_in := by
    rw [List.length_take]
    omega
  rw [h2] at h1
  have h3 := h1 (by omega)
  omega

theorem drain_events {σ : Type} (c : Codec σ) :
    ∀ (n : Nat) (strm : z_stream σ) (out : List Byte) (ws : List WriteResult) (s : DestStream),
      ∀ e ∈ (drain c n strm out ws s).trace,
        e.isDeflate = true ∨ e.isWrite = true ∨ e = Event.deflateEnd := by
  intro n
  induction n with
  | zero =>
    intro strm out ws s e he
    simp [drain] at he
  | succ n ih =>
    intro strm out ws s e
    rw [drain]
    dsimp only
    split_ifs with h1 h2
    · intro he
      simp only [List.cons_append, List.nil_append, List.mem_cons, List.mem_singleton,
        List.not_mem_nil, or_false] at he
      rcases he with rfl | rfl | rfl
      · exact Or.inl rfl
      · exact Or.inr (Or.inl rfl)
      · exact Or.inr (Or.inr rfl)
    · intro he
      simp only [List.cons_append, List.nil_append, List.mem_cons] at he
      rcases he with rfl | rfl | he
      · exact Or.inl rfl
      · exact Or.inr (Or.inl rfl)
      · exact ih _ _ _ _ e he
    · intro he
      simp only [List.mem_cons, List.mem_singleton, List.not_mem_nil, or_false] at he
      rcases he with rfl | rfl
      · exact Or.inl rfl
      · exact Or.inr (Or.inl rfl)

theorem drain_pending {σ : Type} (c : Codec σ) (n : Nat) (strm : z_stream σ) (out : List Byte)
    (ws : List WriteResult) (s : DestStream) : ∀ e ∈ (drain c n strm out ws s).trace, e.pending = 0 := by
  intro e he
  rcases drain_events c n strm out ws s e he with h | h | h
  · cases e <;> first | rfl | simp [Event.isDeflate] at h
  · cases e <;> first | rfl | simp [Event.isWrite] at h
  · rw [h]
    rfl

theorem drain_reached {σ : Type} (c : Codec σ) :
    ∀ (n : Nat) (strm : z_stream σ) (out : List Byte) (ws : List WriteResult) (s : DestStream),
      Reached c strm.state → Reached c (drain c n strm out ws s).strm.state := by
  intro n
  induction n with
  | zero =>
    intro strm out ws s h
    exact h
  | succ n ih =>
    intro strm out ws s h
    have h2 := deflate_reached c strm out h
    rw [drain]
    dsimp only
    split_ifs with h1 h3
    · exact h2
    · exact ih _ _ _ _ h2
    · exact h2

theorem drain_consumes {σ : Type} (c : Codec σ) (hc : DrainsInput c) :
    ∀ (n : Nat) (strm : z_stream σ) (out : List Byte) (ws : List WriteResult) (s : DestStream)
      (ret : Int),
      Reached c strm.state → strm.avail_in ≤ strm.next_in.length →
      (drain c n strm out ws s).status = DrainStatus.done ret →
      (drain c n strm out ws s).strm.avail_in = 0 := by
  intro n
  induction n with
  | zero =>
    intro strm out ws s ret _ _ hst
    simp [drain] at hst
  | succ n ih =>
    intro strm out ws s ret hr hb
    have hb2 := deflate_in_bound c { strm with avail_out := CHUNK } out Z_NO_FLUSH hb
    have hr2 := deflate_reached c strm out hr
    rw [drain]
    dsimp only
    split_ifs with h1 h2
    · intro hst
      simp at hst
    · intro hst
      exact ih _ _ _ _ ret hr2 hb2 hst
    · intro _
      exact deflate_consumes c hc strm out hr hb h2

/-- The trace of the loops starts with a read that overwrites the incoming
`avail_in`; if the codec drains its input, every later read overwrites 0. -/
theorem pump_pending {σ : Type} (c : Codec σ) (hc : DrainsInput c) (dfuel : Nat) (limit : Option Nat) :
    ∀ (n : Nat) (reads : List ReadResult) (strm : z_stream σ) (out : List Byte)
      (ws : List WriteResult) (s : DestStream), Reached c strm.state →
      (pump c dfuel limit n reads strm out ws s).trace = [] ∨
      ∃ k err rest, (pump c dfuel limit n reads strm out ws s).trace
          = Event.fread strm.avail_in k err :: rest ∧ ∀ e ∈ rest, e.pending = 0 := by
  intro n
  induction n with
  | zero =>
    intro reads strm out ws s _
    exact Or.inl (by simp [pump])
  | succ n ih =>
    intro reads strm out ws s hr
    right
    rw [pump]
    dsimp only
    split_ifs with h1 h2
    · exact ⟨_, _, _, rfl, by simp [Event.pending]⟩
    · exact ⟨_, _, _, rfl, by simp [epilogue, Event.pending]⟩
    · have hd := drain_pending c dfuel
        { state := strm.state, next_in := (fread reads).1, avail_in := (fread reads).1.length,
          avail_out := strm.avail_out } out ws s
      have hcons := drain_consumes c hc dfuel
        { state := strm.state, next_in := (fread reads).1, avail_in := (fread reads).1.length,
          avail_out := strm.avail_out } out ws s
      have hreach := drain_reached c dfuel
        { state := strm.state, next_in := (fread reads).1, avail_in := (fread reads).1.length,
          avail_out := strm.avail_out } out ws s hr
      split
      · exact ⟨_, _, _, rfl, hd⟩
      · exact ⟨_, _, _, rfl, hd⟩
      · rename_i ret hst
        have h0 := hcons ret hr (le_refl _) hst
        split_ifs with h3
        · refine ⟨_, _, _, rfl, ?_⟩
          intro e he
          rcases List.mem_append.mp he with h4 | h4
          · exact hd e h4
          · rcases ih (fread reads).2.2
                (drain c dfuel
                  { state := strm.state, next_in := (fread reads).1,
                    avail_in := (fread reads).1.length, avail_out := strm.avail_out } out ws s).strm
                (drain c dfuel
                  { state := strm.state, next_in := (fread reads).1,
                    avail_in := (fread reads).1.length, avail_out := strm.avail_out } out ws s).out
                (drain c dfuel
                  { state := strm.state, next_in := (fread reads).1,
                    avail_in := (fread reads).1.length, avail_out := strm.avail_out } out ws s).writes
                (drain c dfuel
                  { state := strm.state, next_in := (fread reads).1,
                    avail_in := (fread reads).1.length, avail_out := strm.avail_out } out ws s).dest
                hreach
              with h5 | ⟨k, err, rest, h5, h6⟩
            · rw [h5] at h4
              exact absurd h4 (by simp)
            · rw [h5, h0] at h4
              rcases List.mem_cons.mp h4 with h7 | h7
              · rw [h7]
                rfl
              · exact h6 e h7
        · refine ⟨_, _, _, rfl, ?_⟩
          intro e he
          rcases List.mem_append.mp he with h4 | h4
          · exact hd e h4
          · simp only [epilogue, List.mem_cons, List.mem_singleton, List.not_mem_nil,
              or_false] at h4
            rcases h4 with rfl | rfl | rfl <;> rfl

theorem later_read_mem {P rest pre post : List Event} {x y : Event}
    (hP : ∀ e ∈ P, e.isRead = false)
    (hpre : ∃ e ∈ pre, e.isRead = true) :
    pre ++ y :: post = P ++ x :: rest → y ∈ rest := by
  induction P generalizing pre with
  | nil =>
    intro h
    cases pre with
    | nil =>
      obtain ⟨e, he, _⟩ := hpre
      exact absurd he (by simp)
    | cons z pre2 =>
      simp only [List.nil_append, List.cons_append, List.cons.injEq] at h
      rw [← h.2]
      simp
  | cons p0 P2 ih =>
    intro h
    cases pre with
    | nil =>
      obtain ⟨e, he, _⟩ := hpre
      exact absurd he (by simp)
    | cons z pre2 =>
      simp only [List.cons_append, List.cons.injEq] at h
      have hz : z.isRead = false := by
        rw [h.1]
        exact hP p0 (by simp)
      refine ih (fun e he => hP e (by simp [he])) ?_ h.2
      obtain ⟨e, he, her⟩ := hpre
      rcases List.mem_cons.mp he with h1 | h1
      · rw [h1, hz] at her
        exact absurd her (by simp)
      · exact ⟨e, h1, her⟩

/-! ### Output buffer and sink -/

theorem WritesFollow.nil : WritesFollow [] := by
  intro pre post flush ai ret ao produced h
  cases pre <;> simp at h

theorem WritesFollow.cons {e : Event} {t : List Event} (he : e.isDeflate = false)
    (h : WritesFollow t) : WritesFollow (e :: t) := by
  intro pre post flush ai ret ao produced hsplit
  cases pre with
  | nil =>
    simp only [List.nil_append, List.cons.injEq] at hsplit
    rw [hsplit.1] at he
    exact absurd he (by simp [Event.isDeflate])
  | cons z pre2 =>
    simp only [List.cons_append, List.cons.injEq] at hsplit
    exact h pre2 post flush ai ret ao produced hsplit.2

theorem WritesFollow.step {t : List Event} (flush : Int) (ai : Nat) (ret : Int) (ao : Nat)
    (produced : List Byte) (written : Nat) (err : Bool) (hlen : produced.length = CHUNK - ao)
    (h : WritesFollow t) :
    WritesFollow (Event.deflate flush ai ret ao produced :: Event.fwrite produced written err :: t) := by
  intro pre post fl2 ai2 ret2 ao2 pr2 hsplit
  cases pre with
  | nil =>
    simp only [List.nil_append, List.cons.injEq, Event.deflate.injEq] at hsplit
    obtain ⟨⟨_, _, _, hao, hpr⟩, hpost⟩ := hsplit
    subst hao hpr
    exact ⟨hlen, written, err, t, hpost.symm⟩
  | cons z pre2 =>
    simp only [List.cons_append, List.cons.injEq] at hsplit
    exact (WritesFollow.cons (e := Event.fwrite produced written err) rfl h)
      pre2 post fl2 ai2 ret2 ao2 pr2 hsplit.2

theorem WritesFollow.tail {e : Event} {t : List Event} (h : WritesFollow (e :: t)) :
    WritesFollow t := by
  intro pre post flush ai ret ao produced hsplit
  exact h (e :: pre) post flush ai ret ao produced (by rw [hsplit]; rfl)

theorem drain_open_steps {σ : Type} (c : Codec σ) (hc : EndsOnlyOnFinish c) :
    ∀ (n : Nat) (strm : z_stream σ) (out : List Byte) (ws : List WriteResult) (s : DestStream),
      ∀ e ∈ (drain c n strm out ws s).trace, e.openStep := by
  have hstep : ∀ (strm : z_stream σ) (out : List Byte) (ai ao : Nat) (p : List Byte),
      (Event.deflate Z_NO_FLUSH ai (deflate c strm out Z_NO_FLUSH).ret ao p).openStep :=
    fun strm out ai ao p => ⟨rfl, hc _ _ _⟩
  intro n
  induction n with
  | zero =>
    intro strm out ws s e he
    simp [drain] at he
  | succ n ih =>
    intro strm out ws s e
    rw [drain]
    dsimp only
    split_ifs with h1 h2
    · intro he
      simp only [List.cons_append, List.nil_append, List.mem_cons, List.mem_singleton,
        List.not_mem_nil, or_false] at he
      rcases he with rfl | rfl | rfl
      · exact hstep _ _ _ _ _
      · trivial
      · trivial
    · intro he
      simp only [List.cons_append, List.nil_append, List.mem_cons] at he
      rcases he with rfl | rfl | he
      · exact hstep _ _ _ _ _
      · trivial
      · exact ih _ _ _ _ e he
    · intro he
      simp only [List.mem_cons, List.mem_singleton, List.not_mem_nil, or_false] at he
      rcases he with rfl | rfl
      · exact hstep _ _ _ _ _
      · trivial

theorem pump_open_steps {σ : Type} (c : Codec σ) (hc : EndsOnlyOnFinish c) (dfuel : Nat) (limit : Option Nat) :
    ∀ (n : Nat) (reads : List ReadResult) (strm : z_stream σ) (out : List Byte)
      (ws : List WriteResult) (s : DestStream),
      ∀ e ∈ (pump c dfuel limit n reads strm out ws s).trace, e.openStep := by
  have hepi : ∀ e ∈ epilogue, e.openStep := by
    intro e he
    simp only [epilogue, List.mem_cons, List.mem_singleton, List.not_mem_nil, or_false] at he
    rcases he with rfl | rfl | rfl <;> trivial
  intro n
  induction n with
  | zero =>
    intro reads strm out ws s e he
    simp [pump] at he
  | succ n ih =>
    intro reads strm out ws s e
    rw [pump]
    dsimp only
    split_ifs with h1 h2
    · intro he
      simp only [List.mem_cons, List.mem_singleton, List.not_mem_nil, or_false] at he
      rcases he with rfl | rfl <;> trivial
    · intro he
      rcases List.mem_cons.mp he with rfl | h4
      · trivial
      · exact hepi e h4
    · have hd := drain_open_steps c hc dfuel
        { state := strm.state, next_in := (fread reads).1, avail_in := (fread reads).1.length,
          avail_out := strm.avail_out } out ws s
      split
      · intro he
        rcases List.mem_cons.mp he with rfl | h4
        · trivial
        · exact hd e h4
      · intro he
        rcases List.mem_cons.mp he with rfl | h4
        · trivial
        · exact hd e h4
      · split_ifs with h3
        · intro he
          rcases List.mem_cons.mp he with rfl | h4
          · trivial
          · rcases List.mem_append.mp h4 with h5 | h5
            · exact hd e h5
            · exact ih _ _ _ _ _ e h5
        · intro he
          rcases List.mem_cons.mp he with rfl | h4
          · trivial
          · rcases List.mem_append.mp h4 with h5 | h5
            · exact hd e h5
            · exact hepi e h5

/-- The outer loop on a source at end of file: one read, then the code after
the loop. -/
theorem pump_eof {σ : Type} (c : Codec σ) (dfuel : Nat) (limit : Option Nat) (n : Nat)
    (reads : List ReadResult) (strm : z_stream σ) (out : List Byte) (ws : List WriteResult)
    (s : DestStream) (hn : (fread reads).1 = []) (he : (fread reads).2.1 = false) :
    pump c dfuel limit (n + 1) reads strm out ws s =
      { ret := some 0, trace := Event.fread strm.avail_in 0 false :: epilogue,
        sink := fclose limit s, buffered := [] } := by
  rw [pump]
  dsimp only
  rw [if_neg (by simp [he]), if_pos (by simp [hn]), hn, he]
  rfl

/-! ### Fuel

A run that returned keeps its result when it is given more fuel. -/

theorem drain_fuel_succ {σ : Type} (c : Codec σ) :
    ∀ (n : Nat) (strm : z_stream σ) (out : List Byte) (ws : List WriteResult) (s : DestStream),
      (drain c n strm out ws s).status ≠ DrainStatus.out_of_fuel →
      drain c (n + 1) strm out ws s = drain c n strm out ws s := by
  intro n
  induction n with
  | zero =>
    intro strm out ws s h
    simp [drain] at h
  | succ n ih =>
    intro strm out ws s
    rw [drain.eq_2 c strm out ws s (n + 1), drain.eq_2 c strm out ws s n]
    dsimp only
    split_ifs with h1 h2
    · intro _
      rfl
    · intro h
      rw [ih _ _ _ _ h]
    · intro _
      rfl

theorem drain_fuel_mono {σ : Type} (c : Codec σ) (n m : Nat) (hnm : n ≤ m)
    (strm : z_stream σ) (out : List Byte) (ws : List WriteResult) (s : DestStream)
    (h : (drain c n strm out ws s).status ≠ DrainStatus.out_of_fuel) :
    drain c m strm out ws s = drain c n strm out ws s := by
  induction m with
  | zero =>
    have : n = 0 := by omega
    rw [this]
  | succ m ih =>
    by_cases hm : n = m + 1
    · rw [hm]
    · have h2 := ih (by omega)
      rw [← h2] at h
      rw [drain_fuel_succ c m strm out ws s h, h2]

theorem pump_fuel_mono {σ : Type} (c : Codec σ) (d d2 : Nat) (hd : d ≤ d2)
    (limit : Option Nat) :
    ∀ (n n2 : Nat), n ≤ n2 →
      ∀ (reads : List ReadResult) (strm : z_stream σ) (out : List Byte)
        (ws : List WriteResult) (s : DestStream),
      (pump c d limit n reads strm out ws s).ret ≠ none →
      pump c d2 limit n2 reads strm out ws s = pump c d limit n reads strm out ws s := by
  intro n
  induction n with
  | zero =>
    intro n2 _ reads strm out ws s h
    simp [pump] at h
  | succ n ih =>
    intro n2 hn reads strm out ws s
    obtain ⟨k, rfl⟩ : ∃ k, n2 = k + 1 := ⟨n2 - 1, by omega⟩
    rw [pump.eq_2 c d2 limit reads strm out ws s k, pump.eq_2 c d limit reads strm out ws s n]
    dsimp only
    split_ifs with h1 h2
    · intro _
      rfl
    · intro _
      rfl
    · by_cases hst : (drain c d
          { state := strm.state, next_in := (fread reads).1, avail_in := (fread reads).1.length,
            avail_out := strm.avail_out } out ws s).status = DrainStatus.out_of_fuel
      · intro h
        rw [hst] at h
        exact absurd rfl h
      · rw [drain_fuel_mono c d d2 hd _ _ _ _ hst]
        generalize drain c d
          { state := strm.state, next_in := (fread reads).1, avail_in := (fread reads).1.length,
            avail_out := strm.avail_out } out ws s = D
        obtain ⟨st, strm2, out2, tr, dest2, ws2⟩ := D
        cases st with
        | write_error =>
          intro _
          rfl
        | out_of_fuel =>
          intro _
          rfl
        | done ret =>
          dsimp only
          split_ifs with h3
          · intro h
            rw [ih k (by omega) _ _ _ _ _ h]
          · intro _
            rfl

/-- A run that returned with some fuel is the same run with any larger fuel. -/
theorem compress_file_fuel_mono {σ : Type} (c : Codec σ) (w : World) (n m : Nat) (hnm : n ≤ m)
    (h : (compress_file c w n).ret ≠ none) :
    compress_file c w m = compress_file c w n := by
  by_cases hs : w.source_ok = true
  · by_cases hd : w.dest_ok = true
    · by_cases hi : (c.init Z_DEFAULT_COMPRESSION).1 = Z_OK
      · rw [compress_file_started c w n hs hd hi] at h
        rw [compress_file_started c w n hs hd hi, compress_file_started c w m hs hd hi,
          pump_fuel_mono c n m hnm _ n m hnm _ _ _ _ _ h]
      · rw [compress_file_init_failure c w n hs hd hi, compress_file_init_failure c w m hs hd hi]
    · rw [compress_file_open_failure c w n (Or.inr (by simpa using hd)),
        compress_file_open_failure c w m (Or.inr (by simpa using hd))]
  · rw [compress_file_open_failure c w n (Or.inl (by simpa using hs)),
      compress_file_open_failure c w m (Or.inl (by simpa using hs))]

theorem fread_length (reads : List ReadResult) : (fread reads).1.length ≤ CHUNK := by
  cases reads with
  | nil => simp [fread]
  | cons r rest =>
    simp only [fread, List.length_take]
    omega

theorem fread_rest_length (reads : List ReadResult) :
    (fread reads).2.2.length ≤ reads.length - 1 := by
  cases reads with
  | nil => simp [fread]
  | cons r rest => simp [fread]

theorem pump_finishes {σ : Type} (c : Codec σ) (b : Nat) (hc : DrainsWithin c b)
    (limit : Option Nat) :
    ∀ (n : Nat) (reads : List ReadResult) (strm : z_stream σ) (out : List Byte)
      (ws : List WriteResult) (s : DestStream), reads.length < n →
      (pump c b limit n reads strm out ws s).ret ≠ none := by
  intro n
  induction n with
  | zero =>
    intro reads strm out ws s h
    omega
  | succ n ih =>
    intro reads strm out ws s hlen
    rw [pump.eq_2]
    dsimp only
    split_ifs with h1 h2
    · simp
    · simp
    · have hb := hc
        { state := strm.state, next_in := (fread reads).1, avail_in := (fread reads).1.length,
          avail_out := strm.avail_out } out ws s (fread_length reads) rfl
      have hne : reads ≠ [] := by
        intro h
        rw [h] at h2
        exact h2 rfl
      have hrest : (fread reads).2.2.length < n := by
        have := fread_rest_length reads
        have : 0 < reads.length := List.length_pos.mpr hne
        omega
      generalize drain c b
          { state := strm.state, next_in := (fread reads).1, avail_in := (fread reads).1.length,
            avail_out := strm.avail_out } out ws s = D at hb
      obtain ⟨st, strm2, out2, tr, dest2, ws2⟩ := D
      cases st with
      | write_error => simp
      | out_of_fuel => exact absurd rfl hb
      | done ret =>
        dsimp only
        split_ifs with h3
        · exact ih _ _ _ _ _ hrest
        · simp

/-- Termination. If the inner loop of the codec always ends within `b` steps,
`compress_file` returns on every world once the fuel exceeds `b` and the number
of scripted reads: the outer loop uses one scripted read per iteration and an
exhausted script is end of file. -/
theorem compress_file_returns {σ : Type} (c : Codec σ) (b : Nat) (hc : DrainsWithin c b)
    (w : World) (fuel : Nat) (hb : b ≤ fuel) (hr : w.reads.length < fuel) :
    ∃ v, (compress_file c w fuel).ret = some v := by
  rw [← Option.isSome_iff_exists, Option.isSome_iff_ne_none]
  by_cases hs : w.source_ok = true
  · by_cases hd : w.dest_ok = true
    · by_cases hi : (c.init Z_DEFAULT_COMPRESSION).1 = Z_OK
      · rw [compress_file_started c w fuel hs hd hi]
        dsimp only
        have h := pump_finishes c b hc w.close_limit fuel w.reads
          { state := (c.init Z_DEFAULT_COMPRESSION).2, next_in := [],
            avail_in := w.avail_in0, avail_out := 0 } w.out0 w.writes
          { file := [], buffer := [] } hr
        rw [pump_fuel_mono c b fuel hb _ fuel fuel (le_refl _) _ _ _ _ _ h]
        exact h
      · rw [compress_file_init_failure c w fuel hs hd hi]
        simp
    · rw [compress_file_open_failure c w fuel (Or.inr (by simpa using hd))]
      simp
  · rw [compress_file_open_failure c w fuel (Or.inl (by simpa using hs))]
    simp

theorem storeCodec_drains_within : DrainsWithin storeCodec 2 := by
  intro strm out ws s hle hlen
  rw [drain.eq_2]
  dsimp only
  split_ifs with h1 h2
  · simp
  · rw [drain.eq_2]
    dsimp only
    split_ifs with h3 h4
    · simp
    · exfalso
      simp only [deflate, storeCodec, List.length_take, List.length_drop, CHUNK] at h2 h4 hle
      omega
    · simp
  · simp

theorem fclose_empty (limit : Option Nat) :
    fclose limit { file := [], buffer := [] } = [] := by
  cases limit <;> simp [fclose]

theorem storeCodec_drains : DrainsInput storeCodec := by
  intro s input _
  simp only [storeCodec, List.length_take]
  omega

theorem strictCodec_drains : DrainsInput strictCodec := by
  intro s input _
  have h : ¬((Z_NO_FLUSH : Int) < 0 ∨ 5 < Z_NO_FLUSH) := by decide
  simp only [strictCodec, if_neg h, List.length_take]
  omega

/-- The codec `strictCodec` consumes nothing when it is handed a flush mode
that does not exist, even with room in the output: what `DrainsInput` asks is
asked of the call line 48 makes only. -/
theorem strictCodec_rejects_unknown_flush :
    (strictCodec.step () [1, 2, 3] CHUNK 9).consumed = 0 ∧
    (strictCodec.step () [1, 2, 3] CHUNK 9).output = [] ∧
    (strictCodec.step () [1, 2, 3] CHUNK 9).ret = -2 := by
  decide

/-! ## The claims -/

/-- C7. If the source cannot be opened, `compress_file` returns -1 after the
two `fopen` calls and the `printf`: no `deflateInit`, no `fread`, no `deflate`
and no `fwrite` is made, and the sink holds zero bytes. -/
theorem open_failure_injection {σ : Type} (c : Codec σ) (w : World) (fuel : Nat)
    (h : w.source_ok = false) :
    compress_file c w fuel =
      { ret := some (-1),
        trace := [Event.fopen Handle.source false, Event.fopen Handle.dest w.dest_ok,
                  Event.printf],
        sink := [], buffered := [] } := by
  rw [compress_file_open_failure c w fuel (Or.inl h), h]

/-- Witness of C7: a source that does not open, with data that would
otherwise be read. -/
theorem open_failure_injection_witness :
    ({ okWorld [{ data := [1, 2, 3], error := false }] with source_ok := false } : World).source_ok
        = false ∧
    compress_file storeCodec
        { okWorld [{ data := [1, 2, 3], error := false }] with source_ok := false } 5 =
      { ret := some (-1),
        trace := [Event.fopen Handle.source false, Event.fopen Handle.dest true, Event.printf],
        sink := [], buffered := [] } :=
  ⟨rfl, open_failure_injection storeCodec
    { okWorld [{ data := [1, 2, 3], error := false }] with source_ok := false } 5 rfl⟩

/-- C5. In a finished run in which both streams opened and `deflateInit`
returned Z_OK, `deflateEnd` is called exactly once and no `deflate` call comes
after it; in a finished run in which a stream failed to open or `deflateInit`
failed, `deflateEnd` is never called and no `deflate` call is made. -/
theorem codec_finalised_exactly_once {σ : Type} (c : Codec σ) (w : World) (fuel : Nat) (v : Int)
    (hret : (compress_file c w fuel).ret = some v) :
    ((w.source_ok = true ∧ w.dest_ok = true ∧ (c.init Z_DEFAULT_COMPRESSION).1 = Z_OK) →
        (compress_file c w fuel).trace.count Event.deflateEnd = 1 ∧
        ∀ pre post, (compress_file c w fuel).trace = pre ++ Event.deflateEnd :: post →
          ∀ e ∈ post, e.isDeflate = false) ∧
    (¬(w.source_ok = true ∧ w.dest_ok = true ∧ (c.init Z_DEFAULT_COMPRESSION).1 = Z_OK) →
        (compress_file c w fuel).trace.count Event.deflateEnd = 0 ∧
        ∀ e ∈ (compress_file c w fuel).trace, e.isDeflate = false) := by
  rcases compress_file_cases c w fuel with ⟨ho, hrun⟩ | ⟨⟨hs, hd, hi⟩, hrun⟩ | ⟨hok, hshape⟩
  · constructor
    · intro hall
      rcases ho with ho | ho
      · rw [hall.1] at ho
        exact absurd ho (by simp)
      · rw [hall.2.1] at ho
        exact absurd ho (by simp)
    · intro _
      rw [hrun]
      constructor
      · simp [List.count_cons]
      · intro e he
        simp only [List.mem_cons, List.mem_singleton, List.not_mem_nil, or_false] at he
        rcases he with rfl | rfl | rfl <;> rfl
  · constructor
    · intro hall
      exact absurd hall.2.2 hi
    · intro _
      rw [hrun]
      constructor
      · simp [List.count_cons]
      · intro e he
        simp only [List.mem_cons, List.mem_singleton, List.not_mem_nil, or_false] at he
        rcases he with rfl | rfl | rfl <;> rfl
  · constructor
    · intro _
      rw [hret] at hshape
      obtain ⟨body, tail, ht, hbody, htail⟩ := hshape.finished
      have htail2 : ∀ e ∈ tail, (decide (e = Event.deflateEnd)) = false ∧ e.isDeflate = false := by
        intro e he
        rcases htail with rfl | rfl
        · exact absurd he (by simp)
        · simp only [List.mem_cons, List.mem_singleton, List.not_mem_nil, or_false] at he
          rcases he with rfl | rfl <;> exact ⟨by decide, rfl⟩
      constructor
      · rw [ht, List.count_append, List.count_cons_self,
          List.count_eq_zero_of_not_mem hbody, List.count_eq_zero_of_not_mem]
        intro hmem
        have := (htail2 _ hmem).1
        simp at this
      · intro pre post hsplit e he
        rw [ht] at hsplit
        have hu := split_unique (fun e => decide (e = Event.deflateEnd)) body
          (by
            intro e he
            simp only [decide_eq_false_iff_not]
            intro heq
            exact hbody (heq ▸ he))
          (fun e he => (htail2 e he).1) (by simp) hsplit.symm
        rw [hu.2.2] at he
        exact (htail2 e he).2
    · intro hnot
      exact absurd hok hnot

/-- Witness of C5: a successful run on two reads calls `deflateEnd` once. -/
theorem codec_finalised_exactly_once_witness :
    (compress_file storeCodec twoReadWorld 3).ret = some 0 ∧
    (compress_file storeCodec twoReadWorld 3).trace.count Event.deflateEnd = 1 :=
  ⟨by decide,
   ((codec_finalised_exactly_once storeCodec twoReadWorld 3 0 (by decide)).1
      ⟨rfl, rfl, rfl⟩).1⟩

/-- C8. Whenever the trace of a run contains a read that reported an I/O
fault, or a write that returned a count other than the number of bytes
produced or left the error indicator set, the run returned -1 and the only call
after the failing one is `deflateEnd`: no further read, production step or
write, so the bytes of a faulted read never reach the codec. -/
theorem io_fault_is_fatal {σ : Type} (c : Codec σ) (w : World) (fuel : Nat)
    (pre post : List Event) (e : Event)
    (ht : (compress_file c w fuel).trace = pre ++ e :: post)
    (he : e.isIOFault = true) :
    (compress_file c w fuel).ret = some (-1) ∧ post = [Event.deflateEnd] := by
  have hmem : e ∈ (compress_file c w fuel).trace := by
    rw [ht]
    simp
  rcases compress_file_cases c w fuel with ⟨_, hrun⟩ | ⟨_, hrun⟩ | ⟨_, hshape⟩
  · rw [hrun] at hmem
    simp only [List.mem_cons, List.mem_singleton, List.not_mem_nil, or_false] at hmem
    rcases hmem with rfl | rfl | rfl <;>
      rcases fault_is_read_or_write he with h1 | h1 <;>
      simp [Event.isRead, Event.isWrite] at h1
  · rw [hrun] at hmem
    simp only [List.mem_cons, List.mem_singleton, List.not_mem_nil, or_false] at hmem
    rcases hmem with rfl | rfl | rfl <;>
      rcases fault_is_read_or_write he with h1 | h1 <;>
      simp [Event.isRead, Event.isWrite] at h1
  · generalize (compress_file c w fuel).ret = r at hshape
    generalize (compress_file c w fuel).trace = t at hshape ht hmem
    cases hshape with
    | unfinished _ hcalm =>
      rw [calm_not_fault (hcalm e hmem)] at he
      exact absurd he (by simp)
    | success body hb =>
      rcases List.mem_append.mp hmem with h1 | h1
      · rw [calm_not_fault (hb e h1)] at he
        exact absurd he (by simp)
      · simp only [epilogue, List.mem_cons, List.mem_singleton, List.not_mem_nil,
          or_false] at h1
        rcases h1 with rfl | rfl | rfl <;>
          rcases fault_is_read_or_write he with h2 | h2 <;>
          simp [Event.isRead, Event.isWrite] at h2
    | io_fault body f hb hf =>
      have hu := split_unique Event.isIOFault body
        (fun x hx => calm_not_fault (hb x hx))
        (b := [Event.deflateEnd])
        (by
          intro x hx
          simp only [List.mem_singleton] at hx
          rw [hx]
          rfl)
        he ht.symm
      exact ⟨rfl, hu.2.2⟩

/-- Witness of C8: the second read faults; the run returns -1 and only
`deflateEnd` follows the faulted read. -/
theorem io_fault_is_fatal_witness :
    (compress_file storeCodec readFaultWorld 3).trace =
      [Event.fopen Handle.source true, Event.fopen Handle.dest true, Event.deflateInit true,
       Event.fread 7 3 false, Event.deflate 0 3 0 16381 [1, 2, 3],
       Event.fwrite [1, 2, 3] 3 false] ++ Event.fread 0 1 true :: [Event.deflateEnd] ∧
    (compress_file storeCodec readFaultWorld 3).ret = some (-1) :=
  ⟨by decide,
   (io_fault_is_fatal storeCodec readFaultWorld 3
      [Event.fopen Handle.source true, Event.fopen Handle.dest true, Event.deflateInit true,
       Event.fread 7 3 false, Event.deflate 0 3 0 16381 [1, 2, 3],
       Event.fwrite [1, 2, 3] 3 false]
      [Event.deflateEnd] (Event.fread 0 1 true) (by decide) (by decide)).1⟩

/-- C4, as stated, fails: an open failure, a codec init failure, a read
failure and a write failure all make `compress_file` return the same value. -/
theorem failure_kinds_share_one_value :
    failureKind (compress_file storeCodec noSourceWorld 3).trace = some Failure.IOOpenError ∧
    failureKind (compress_file noMemCodec twoReadWorld 3).trace = some Failure.CodecInitError ∧
    failureKind (compress_file storeCodec readFaultWorld 3).trace = some Failure.IOReadError ∧
    failureKind (compress_file storeCodec shortWriteWorld 3).trace = some Failure.IOWriteError ∧
    (compress_file storeCodec noSourceWorld 3).ret = some (-1) ∧
    (compress_file noMemCodec twoReadWorld 3).ret = some (-1) ∧
    (compress_file storeCodec readFaultWorld 3).ret = some (-1) ∧
    (compress_file storeCodec shortWriteWorld 3).ret = some (-1) := by
  decide

/-- C4, amended. The value `compress_file` returns tells failure from success
and nothing more: a finished run returns -1 when one of its calls failed (open,
codec init, read or write failure alike) and 0 when none did. -/
theorem return_value_tells_failure_only {σ : Type} (c : Codec σ) (w : World) (fuel : Nat)
    (v : Int) (hret : (compress_file c w fuel).ret = some v) :
    v = if (failureKind (compress_file c w fuel).trace).isSome then -1 else 0 := by
  rcases compress_file_cases c w fuel with ⟨ho, hrun⟩ | ⟨_, hrun⟩ | ⟨_, hshape⟩
  · rw [hrun] at hret ⊢
    simp only [Option.some.injEq] at hret
    rw [← hret]
    rcases ho with ho | ho
    · rw [ho]
      rfl
    · rw [ho]
      cases w.source_ok <;> rfl
  · rw [hrun] at hret ⊢
    simp only [Option.some.injEq] at hret
    rw [← hret]
    rfl
  · rw [hret] at hshape
    generalize (compress_file c w fuel).trace = t at hshape
    cases hshape with
    | success body hb =>
      have h1 : List.findSome? Event.failure? body = none :=
        List.findSome?_eq_none_iff.mpr (fun x hx => calm_no_failure (hb x hx))
      simp [failureKind, List.findSome?_append, h1, epilogue, Event.failure?]
    | io_fault body f hb hf =>
      have h1 : List.findSome? Event.failure? body = none :=
        List.findSome?_eq_none_iff.mpr (fun x hx => calm_no_failure (hb x hx))
      have h2 : (f.failure?).isSome = true := by
        simp only [Event.isIOFault, Bool.or_eq_true, decide_eq_true_eq] at hf
        rcases hf with hf | hf <;> rw [hf] <;> rfl
      obtain ⟨k, hk⟩ := Option.isSome_iff_exists.mp h2
      simp [failureKind, List.findSome?_append, h1, hk]

/-- Witness of C4 amended: a write that falls short makes the run return -1. -/
theorem return_value_tells_failure_only_witness :
    (compress_file storeCodec shortWriteWorld 3).ret = some (-1) ∧
    (-1 : Int) =
      if (failureKind (compress_file storeCodec shortWriteWorld 3).trace).isSome then -1 else 0 :=
  ⟨by decide, return_value_tells_failure_only storeCodec shortWriteWorld 3 (-1) (by decide)⟩

/-- C6, what the code does: a run that returns -1 has closed no stream, whatever
it had opened. -/
theorem error_return_closes_no_stream {σ : Type} (c : Codec σ) (w : World) (fuel : Nat)
    (hret : (compress_file c w fuel).ret = some (-1)) (k : Handle) :
    Event.fclose k ∉ (compress_file c w fuel).trace := by
  intro hmem
  rcases compress_file_cases c w fuel with ⟨_, hrun⟩ | ⟨_, hrun⟩ | ⟨_, hshape⟩
  · rw [hrun] at hmem
    simp at hmem
  · rw [hrun] at hmem
    simp at hmem
  · rw [hret] at hshape
    generalize (compress_file c w fuel).trace = t at hshape hmem
    cases hshape with
    | io_fault body f hb hf =>
      simp only [List.mem_append, List.mem_cons, List.mem_singleton, List.not_mem_nil,
        or_false] at hmem
      rcases hmem with h1 | h1 | h1
      · exact calm_ne_fclose (hb _ h1) k rfl
      · rw [← h1] at hf
        exact absurd hf (by simp [Event.isIOFault, Event.failure?])
      · exact absurd h1 (by simp)

/-- Evaluation of C6 at its failing input: the source opens, the sink does
not; the run returns -1 and the source stream is never closed. -/
theorem error_return_closes_no_stream_witness :
    (compress_file storeCodec noDestWorld 3).ret = some (-1) ∧
    Event.fopen Handle.source true ∈ (compress_file storeCodec noDestWorld 3).trace ∧
    Event.fclose Handle.source ∉ (compress_file storeCodec noDestWorld 3).trace :=
  ⟨by decide, by decide,
   error_return_closes_no_stream storeCodec noDestWorld 3 (by decide) Handle.source⟩

/-- C9. For a codec whose `deflate`, called as line 48 calls it (Z_NO_FLUSH,
`CHUNK` bytes of output room, on a state the run has reached), has consumed all
its input whenever it leaves room in the output (what the exit test of the
inner loop relies on, and what zlib documents), every read after the first of
a run finds `strm.avail_in = 0`: the bytes loaded by the previous read have all
been consumed before `in` is overwritten. -/
theorem input_consumed_before_refill {σ : Type} (c : Codec σ) (hc : DrainsInput c)
    (w : World) (fuel : Nat) (pre post : List Event) (pending n : Nat) (err : Bool)
    (ht : (compress_file c w fuel).trace = pre ++ Event.fread pending n err :: post)
    (hlater : ∃ e ∈ pre, e.isRead = true) :
    pending = 0 := by
  by_cases hs : w.source_ok = true
  · by_cases hd : w.dest_ok = true
    · by_cases hi : (c.init Z_DEFAULT_COMPRESSION).1 = Z_OK
      · rw [compress_file_started c w fuel hs hd hi] at ht
        dsimp only at ht
        rcases pump_pending c hc fuel w.close_limit fuel w.reads
            { state := (c.init Z_DEFAULT_COMPRESSION).2, next_in := [],
              avail_in := w.avail_in0, avail_out := 0 } w.out0 w.writes
            { file := [], buffer := [] } (Reached.init hi)
          with h1 | ⟨k, e1, rest, h1, h2⟩
        · rw [h1, List.append_nil] at ht
          have hmem : Event.fread pending n err ∈ prologue := by
            rw [ht]
            simp
          simp [prologue] at hmem
        · rw [h1] at ht
          have hmem := later_read_mem (by simp [prologue, Event.isRead]) hlater ht.symm
          exact h2 _ hmem
      · rw [compress_file_init_failure c w fuel hs hd hi] at ht
        dsimp only at ht
        have hmem : Event.fread pending n err ∈
            [Event.fopen Handle.source true, Event.fopen Handle.dest true,
             Event.deflateInit false] := by
          rw [ht]
          simp
        simp at hmem
    · rw [compress_file_open_failure c w fuel (Or.inr (by simpa using hd))] at ht
      dsimp only at ht
      have hmem : Event.fread pending n err ∈
          [Event.fopen Handle.source w.source_ok, Event.fopen Handle.dest w.dest_ok,
           Event.printf] := by
        rw [ht]
        simp
      simp at hmem
  · rw [compress_file_open_failure c w fuel (Or.inl (by simpa using hs))] at ht
    dsimp only at ht
    have hmem : Event.fread pending n err ∈
        [Event.fopen Handle.source w.source_ok, Event.fopen Handle.dest w.dest_ok,
         Event.printf] := by
      rw [ht]
      simp
    simp at hmem

/-- Witness of C9, with a codec that rejects unknown flush modes as zlib does:
in the run on two reads the second read finds `avail_in = 0`. -/
theorem input_consumed_before_refill_witness :
    DrainsInput strictCodec ∧
    (compress_file strictCodec twoReadWorld 3).trace =
      [Event.fopen Handle.source true, Event.fopen Handle.dest true, Event.deflateInit true,
       Event.fread 7 3 false, Event.deflate 0 3 0 16381 [1, 2, 3],
       Event.fwrite [1, 2, 3] 3 false] ++
      Event.fread 0 1 false ::
      [Event.deflate 0 1 0 16383 [4], Event.fwrite [4] 1 false, Event.fread 0 0 false,
       Event.deflateEnd, Event.fclose Handle.source, Event.fclose Handle.dest] ∧
    (0 : Nat) = 0 :=
  ⟨strictCodec_drains, by decide,
   input_consumed_before_refill strictCodec strictCodec_drains twoReadWorld 3
      [Event.fopen Handle.source true, Event.fopen Handle.dest true, Event.deflateInit true,
       Event.fread 7 3 false, Event.deflate 0 3 0 16381 [1, 2, 3],
       Event.fwrite [1, 2, 3] 3 false]
      [Event.deflate 0 1 0 16383 [4], Event.fwrite [4] 1 false, Event.fread 0 0 false,
       Event.deflateEnd, Event.fclose Handle.source, Event.fclose Handle.dest]
      0 1 false (by decide) ⟨Event.fread 7 3 false, by decide, rfl⟩⟩

/-- C3, what the code does: `deflate` is only ever called with Z_NO_FLUSH, so
with a codec that ends its stream only on Z_FINISH (as zlib does) no production
step of any run returns Z_STREAM_END, successful runs included. -/
theorem no_step_reports_stream_end {σ : Type} (c : Codec σ) (hc : EndsOnlyOnFinish c)
    (w : World) (fuel : Nat) (flush : Int) (ai : Nat) (ret : Int) (ao : Nat)
    (produced : List Byte)
    (hmem : Event.deflate flush ai ret ao produced ∈ (compress_file c w fuel).trace) :
    flush = Z_NO_FLUSH ∧ ret ≠ Z_STREAM_END := by
  by_cases hs : w.source_ok = true
  · by_cases hd : w.dest_ok = true
    · by_cases hi : (c.init Z_DEFAULT_COMPRESSION).1 = Z_OK
      · rw [compress_file_started c w fuel hs hd hi] at hmem
        dsimp only at hmem
        rcases List.mem_append.mp hmem with h1 | h1
        · simp [prologue] at h1
        · exact pump_open_steps c hc fuel _ fuel _ _ _ _ _ _ h1
      · rw [compress_file_init_failure c w fuel hs hd hi] at hmem
        simp at hmem
    · rw [compress_file_open_failure c w fuel (Or.inr (by simpa using hd))] at hmem
      simp at hmem
  · rw [compress_file_open_failure c w fuel (Or.inl (by simpa using hs))] at hmem
    simp at hmem

theorem storeCodec_ends_only_on_finish : EndsOnlyOnFinish storeCodec := by
  intro s input room
  simp [storeCodec, Z_OK, Z_STREAM_END]

/-- Evaluation of C3 at a failing input: the run on two reads returns 0 although
its last production step returned Z_OK under Z_NO_FLUSH. -/
theorem no_step_reports_stream_end_witness :
    (compress_file storeCodec twoReadWorld 3).ret = some 0 ∧
    Event.deflate 0 1 0 16383 [4] ∈ (compress_file storeCodec twoReadWorld 3).trace ∧
    ((0 : Int) = Z_NO_FLUSH ∧ (0 : Int) ≠ Z_STREAM_END) :=
  ⟨by decide, by decide,
   no_step_reports_stream_end storeCodec storeCodec_ends_only_on_finish twoReadWorld 3
      0 1 0 16383 [4] (by decide)⟩

/-- C2, what the code does: when both streams open, the codec initialises and
the first read returns no bytes and no error, the run is one read followed by
`deflateEnd` and the two `fclose` calls; it returns 0 without any production
step and without any write, and the sink stays empty. -/
theorem empty_source_no_production_step {σ : Type} (c : Codec σ) (w : World) (fuel : Nat)
    (hs : w.source_ok = true) (hd : w.dest_ok = true)
    (hi : (c.init Z_DEFAULT_COMPRESSION).1 = Z_OK) (hfuel : 0 < fuel)
    (hn : (fread w.reads).1 = []) (he : (fread w.reads).2.1 = false) :
    compress_file c w fuel =
      { ret := some 0,
        trace := [Event.fopen Handle.source true, Event.fopen Handle.dest true,
                  Event.deflateInit true, Event.fread w.avail_in0 0 false, Event.deflateEnd,
                  Event.fclose Handle.source, Event.fclose Handle.dest],
        sink := [], buffered := [] } := by
  obtain ⟨k, rfl⟩ := Nat.exists_eq_succ_of_ne_zero (Nat.pos_iff_ne_zero.mp hfuel)
  rw [compress_file_started c w _ hs hd hi, pump_eof c _ _ k _ _ _ _ _ hn he, fclose_empty]
  rfl

/-- Evaluation of C2 at its failing input, the empty source. -/
theorem empty_source_no_production_step_witness :
    compress_file storeCodec (okWorld []) 1 =
      { ret := some 0,
        trace := [Event.fopen Handle.source true, Event.fopen Handle.dest true,
                  Event.deflateInit true, Event.fread 7 0 false, Event.deflateEnd,
                  Event.fclose Handle.source, Event.fclose Handle.dest],
        sink := [], buffered := [] } :=
  empty_source_no_production_step storeCodec (okWorld []) 1 rfl rfl rfl (by decide) rfl rfl

/-- C1, what the code does on the empty byte sequence: whatever the codec, the
run on a source file holding no bytes returns 0 and has written nothing at all
to the sink, so the sink does not hold a compressed stream. -/
theorem empty_file_yields_empty_sink {σ : Type} (c : Codec σ) (fuel : Nat)
    (hi : (c.init Z_DEFAULT_COMPRESSION).1 = Z_OK) (hfuel : 0 < fuel) :
    (compress_file c (fileWorld []) fuel).ret = some 0 ∧
    (compress_file c (fileWorld []) fuel).sink = [] := by
  obtain ⟨k, rfl⟩ := Nat.exists_eq_succ_of_ne_zero (Nat.pos_iff_ne_zero.mp hfuel)
  rw [compress_file_started c (fileWorld []) _ rfl rfl hi]
  have h := pump_eof c (k + 1) (fileWorld []).close_limit k (fileWorld []).reads
    { state := (c.init Z_DEFAULT_COMPRESSION).2, next_in := [],
      avail_in := (fileWorld []).avail_in0, avail_out := 0 }
    (fileWorld []).out0 (fileWorld []).writes { file := [], buffer := [] } rfl rfl
  rw [h]
  exact ⟨rfl, rfl⟩

/-- Evaluation of C1 at its failing input with the copying codec. -/
theorem empty_file_yields_empty_sink_witness :
    (compress_file storeCodec (fileWorld []) 1).ret = some 0 ∧
    (compress_file storeCodec (fileWorld []) 1).sink = [] :=
  empty_file_yields_empty_sink storeCodec 1 rfl (by decide)

end CompressFile
